import Mathlib

set_option autoImplicit false
set_option maxHeartbeats 1000000

/-!
Shallow embedding of the SegLib library (SegLibVector.h, SegLibNumerical.h,
SegLibNumerical.cpp, SegLibObjects.h).

Modelling conventions: C++ `std::vector<T>` is a `List T`, `size_t` indices
are `Nat`, the integral template parameter of the numerical functions is
`Int`.  A C++ class with one distinguished accessible data member (reached
through a member pointer `M C::*`) is modelled as a pair `M × R`: the
member's current value together with the rest of the object's state; the
member pointer is the first projection and writing through it replaces the
first component, leaving the second untouched.  In-place functions (`_p`
suffix, mutable reference parameters) return the new state of the mutated
argument; a function whose C++ counterpart can reach undefined behaviour
returns `Option`, with `none` on the undefined branch.
-/

namespace SLV

variable {α : Type}

/-- Embedding of `SLV::Append` (SegLibVector.h, lines 27-38): the elements of
`Vector1` followed by the elements of `Vector2`. -/
def Append (Vector1 Vector2 : List α) : List α :=
  Vector1 ++ Vector2

/-- Embedding of `SLV::Erase` (SegLibVector.h, lines 49-61): erases `Index`
from a copy; when the index is out of range (or the vector empty) the
unedited copy is returned. -/
def Erase (Vector : List α) (Index : Nat) : List α :=
  if Index ≥ Vector.length ∨ Vector.length = 0 then Vector
  else Vector.eraseIdx Index

/-- Embedding of `SLV::Erase_p` (SegLibVector.h, lines 63-68): in-place erase
with no bounds check; `Vector.erase(Vector.begin() + Index)` is undefined
behaviour unless `Index` is a valid element index, modelled by `none`. -/
def Erase_p (Vector : List α) (Index : Nat) : Option (List α) :=
  if Index < Vector.length then some (Vector.eraseIdx Index) else none

/-- Embedding of the inner scan of `SLV::MakeUniqueInPlace` (the
`for (ExistingItem : ResultVector)` loop with its `break`): does `Result`
already hold an element equal to `x`? -/
def containsMatch [DecidableEq α] (Result : List α) (x : α) : Bool :=
  match Result with
  | [] => false
  | y :: ys => if x = y then true else containsMatch ys x

/-- Embedding of the main loop of `SLV::MakeUniqueInPlace`: `Result` is the
accumulated `ResultVector`, `Removed` the running `RemovedElements` count. -/
def makeUniqueGo [DecidableEq α] (Result : List α) (Vector : List α) (Removed : Nat) :
    List α × Nat :=
  match Vector with
  | [] => (Result, Removed)
  | x :: xs =>
    if containsMatch Result x then makeUniqueGo Result xs (Removed + 1)
    else makeUniqueGo (Result ++ [x]) xs Removed

/-- Embedding of `SLV::MakeUniqueInPlace` (SegLibVector.h, lines 80-112):
returns the vector's new contents together with the number of removed
elements (the C++ function mutates its argument and returns the count). -/
def MakeUniqueInPlace [DecidableEq α] (Vector : List α) : List α × Nat :=
  makeUniqueGo [] Vector 0

/-- Specification-side description used to settle the claim on
`MakeUniqueInPlace`, following the spec's words: keep the first occurrence of
each distinct value, in the original relative order. -/
def keepFirstOccurrences [DecidableEq α] : List α → List α
  | [] => []
  | x :: xs => x :: keepFirstOccurrences (xs.filter (fun y => decide (y ≠ x)))
termination_by l => l.length
decreasing_by
  simp only [List.length_cons]
  exact Nat.lt_succ_of_le (List.length_filter_le _ _)

/-- Embedding of `SLV::CreateUnion` (SegLibVector.h, lines 133-140). -/
def CreateUnion [DecidableEq α] (Vector1 Vector2 : List α) : List α :=
  (MakeUniqueInPlace (Append Vector1 Vector2)).1

/-- Embedding of `SLV::CreateIntersectional` (SegLibVector.h, lines 152-181):
the loop keeps each element of `Vector1` equal to some element of `Vector2`,
then deduplicates. -/
def CreateIntersectional [DecidableEq α] (Vector1 Vector2 : List α) : List α :=
  (MakeUniqueInPlace (Vector1.filter (fun x => containsMatch Vector2 x))).1

/-- Embedding of `SLV::CreateDifferential` (SegLibVector.h, lines 193-222):
the loop keeps each element of `BaseVector` equal to no element of
`ComparisonVector`, then deduplicates. -/
def CreateDifferential [DecidableEq α] (BaseVector ComparisonVector : List α) : List α :=
  (MakeUniqueInPlace (BaseVector.filter (fun x => !containsMatch ComparisonVector x))).1

/-- Embedding of `SLV::CreateSymmeticalDifference` (SegLibVector.h,
lines 224-229). -/
def CreateSymmeticalDifference [DecidableEq α] (Vector1 Vector2 : List α) : List α :=
  (MakeUniqueInPlace (Append (CreateDifferential Vector1 Vector2)
    (CreateDifferential Vector2 Vector1))).1

/-- Embedding of the chunk-building loop of `SLV::Distribute` (the outer
`for (i < Distributions)` loop): each iteration takes the next `Indices`
elements; the part of the list already consumed plays the role of the running
`Index` cursor. -/
def buildChunks (Vector : List α) (Indices : Nat) : Nat → List (List α)
  | 0 => []
  | k + 1 => Vector.take Indices :: buildChunks (Vector.drop Indices) Indices k

/-- Embedding of the remainder loop of `SLV::Distribute`
(`ReturnVector[i].push_back(Vector[Index++])` for `i < Remainder`): `Extras`
holds the elements from the cursor position on, one appended per leading
chunk. -/
def appendRemainder : List (List α) → List α → List (List α)
  | Chunks, [] => Chunks
  | [], _ :: _ => []
  | C :: Cs, e :: es => (C ++ [e]) :: appendRemainder Cs es

/-- Embedding of `SLV::Distribute` (SegLibVector.h, lines 772-817). -/
def Distribute (Vector : List α) (Distributions : Nat)
    (ForceEqualDistribution : Bool) : List (List α) :=
  if Distributions ≤ 1 then [Vector]
  else
    let Indices := Vector.length / Distributions
    let Chunks := buildChunks Vector Indices Distributions
    if ForceEqualDistribution then Chunks
    else appendRemainder Chunks (Vector.drop (Distributions * Indices))

end SLV

namespace SLO

/-- Embedding of `SLO::LinkedMember` (SegLibObjects.h, lines 28-68).  The live
object the C++ class holds by reference (`ClassType& ClassPtr`) is carried as
explicit state `ClassRef` — a pair of the distinguished member's value and
the rest of the object — and `Member` is the public working copy. -/
structure LinkedMember (M R : Type) where
  ClassRef : M × R
  Member : M

/-- Embedding of the `LinkedMember` constructor: the working copy is
initialised from the live object's member (`Member(ClassPtr.*MemberTypePtr)`). -/
def LinkedMember.make {M R : Type} (ParentClass : M × R) : LinkedMember M R :=
  { ClassRef := ParentClass, Member := ParentClass.1 }

/-- Embedding of `LinkedMember::Restore`: the working copy is overwritten from
the live object. -/
def LinkedMember.Restore {M R : Type} (s : LinkedMember M R) : LinkedMember M R :=
  { s with Member := s.ClassRef.1 }

/-- Embedding of `LinkedMember::Commit`: the live object's member is
overwritten with the working copy. -/
def LinkedMember.Commit {M R : Type} (s : LinkedMember M R) : LinkedMember M R :=
  { s with ClassRef := (s.Member, s.ClassRef.2) }

/-- Embedding of `LinkedMember::CopyClass`: a value copy of the live object. -/
def LinkedMember.CopyClass {M R : Type} (s : LinkedMember M R) : M × R :=
  s.ClassRef

/-- Embedding of `SLO::ExtractOperate_p` (SegLibObjects.h, lines 764-784): for
each object, its member is overwritten with `OperativeFunc` of the old value
and `OperationVar`, and the freshly stored member is appended to the returned
vector.  The result pairs the mutated object vector with the extracted
vector. -/
def ExtractOperate_p {M R V : Type} (ObjectVector : List (M × R)) (OperationVar : V)
    (OperativeFunc : M → V → M) : List (M × R) × List M :=
  match ObjectVector with
  | [] => ([], [])
  | CurrentElement :: rest =>
    let NewMember := OperativeFunc CurrentElement.1 OperationVar
    let tail := ExtractOperate_p rest OperationVar OperativeFunc
    ((NewMember, CurrentElement.2) :: tail.1, NewMember :: tail.2)

/-- Embedding of the `SLO::Operate_p` overload taking only a member pointer
(SegLibObjects.h, lines 669-679): the loop body is the discarded-value
expression statement `CurrentElement.*Method;`, which only reads the member. -/
def Operate_p_member {M R : Type} (ObjectVector : List (M × R)) : List (M × R) :=
  match ObjectVector with
  | [] => []
  | CurrentElement :: rest =>
    let _readAndDiscarded := CurrentElement.1
    CurrentElement :: Operate_p_member rest

end SLO

namespace SLN

/-- Embedding of `SLN::IsEven` (SegLibNumerical.h, lines 42-45). -/
def IsEven (Value : Int) : Bool :=
  decide (Value % 2 = 0)

/-- Embedding of the 6k±1 trial-division loop of `SLN::IsPrime`
(`for (long long i = 5; i * i <= Value; i = i + 6)`). -/
def trialLoop (Value : Int) (i : Int) : Bool :=
  if h : i * i ≤ Value then
    if Value % i = 0 ∨ Value % (i + 2) = 0 then false
    else trialLoop Value (i + 6)
  else true
termination_by (Value + 1 - i).toNat
decreasing_by
  have hiv : i ≤ Value := by
    rcases le_or_lt i 0 with h0 | h1
    · exact le_trans h0 (le_trans (mul_self_nonneg i) h)
    · calc i = i * 1 := (mul_one i).symm
        _ ≤ i * i := by exact mul_le_mul_of_nonneg_left h1 (le_of_lt h1)
        _ ≤ Value := h
  omega

/-- Embedding of `SLN::IsPrime` (SegLibNumerical.h, lines 90-109). -/
def IsPrime (Value : Int) : Bool :=
  if Value ≤ 1 then false
  else if Value ≤ 3 then true
  else if IsEven Value then false
  else if Value % 3 = 0 then false
  else trialLoop Value 5

end SLN

/-!
Theorems.  Each claim's theorem is stated over the embedding above; the
definitions of the prime generator appear further down because their
termination arguments rest on the primality lemmas proved first.
-/

namespace SLV

/-- Claim C8: for an out-of-range index, `Erase` returns a sequence
element-wise equal to its input (a no-op copy, no error raised); for a valid
index it returns the input with exactly the element at that index removed and
all other elements kept in their original relative order.  The embedding is
pure, reflecting that the C++ function takes its vector by const reference
and never mutates it. -/
theorem Erase_spec {α : Type} (Vector : List α) (Index : Nat) :
    (Vector.length ≤ Index → Erase Vector Index = Vector) ∧
    (Index < Vector.length →
      Erase Vector Index = Vector.take Index ++ Vector.drop (Index + 1)) := by
  constructor
  · intro h
    simp only [Erase, ge_iff_le, if_pos (Or.inl h)]
  · intro h
    have hcond : ¬ (Index ≥ Vector.length ∨ Vector.length = 0) := by omega
    simp only [Erase, if_neg hcond]
    exact List.eraseIdx_eq_take_drop_succ Vector Index

/-- Claim C9: `Erase_p` performs no bounds check; under the precondition that
the index is in range it removes exactly the element at that index (the
embedding's undefined-behaviour branch `none` is unreachable), and for an
out-of-range index the operation is undefined (`none`). -/
theorem Erase_p_spec {α : Type} (Vector : List α) (Index : Nat) :
    (Index < Vector.length →
      Erase_p Vector Index = some (Vector.take Index ++ Vector.drop (Index + 1))) ∧
    (Vector.length ≤ Index → Erase_p Vector Index = none) := by
  constructor
  · intro h
    simp only [Erase_p, if_pos h]
    rw [List.eraseIdx_eq_take_drop_succ]
  · intro h
    have hcond : ¬ Index < Vector.length := by omega
    simp only [Erase_p, if_neg hcond]

end SLV

namespace SLO

/-- Claim C3: immediately after construction the working copy equals the live
object's member; `Commit` overwrites the live object's member with the
working copy (touching nothing else of the object); `Restore` overwrites the
working copy from the live object's member and leaves the live object itself
unchanged, discarding any uncommitted edit of the working copy. -/
theorem LinkedMember_spec {M R : Type} (ParentClass : M × R) (s : LinkedMember M R) :
    (LinkedMember.make ParentClass).Member = ParentClass.1 ∧
    s.Commit.ClassRef.1 = s.Member ∧
    s.Commit.ClassRef.2 = s.ClassRef.2 ∧
    s.Restore.Member = s.ClassRef.1 ∧
    s.Restore.ClassRef = s.ClassRef := by
  exact ⟨rfl, rfl, rfl, rfl, rfl⟩

/-- Claim C7: `ExtractOperate_p` replaces each object's member in place with
the operation applied to the old member and the operand, leaves every other
component of every object unchanged, and returns the sequence of the new
member values in input order. -/
theorem ExtractOperate_p_spec {M R V : Type} (ObjectVector : List (M × R))
    (OperationVar : V) (OperativeFunc : M → V → M) :
    ExtractOperate_p ObjectVector OperationVar OperativeFunc =
      (ObjectVector.map (fun o => (OperativeFunc o.1 OperationVar, o.2)),
       ObjectVector.map (fun o => OperativeFunc o.1 OperationVar)) := by
  induction ObjectVector with
  | nil => rfl
  | cons o rest ih =>
    simp only [ExtractOperate_p, ih, List.map_cons]

/-- Claim C10: the `Operate_p` overload that takes only a member pointer
never modifies its input — every element (every component of every object)
is returned unchanged, because the loop body only reads the member and
discards the value. -/
theorem Operate_p_member_spec {M R : Type} (ObjectVector : List (M × R)) :
    Operate_p_member ObjectVector = ObjectVector := by
  induction ObjectVector with
  | nil => rfl
  | cons o rest ih =>
    simp only [Operate_p_member, ih]

end SLO

namespace SLV

theorem containsMatch_iff {α : Type} [DecidableEq α] (Result : List α) (x : α) :
    containsMatch Result x = true ↔ x ∈ Result := by
  induction Result with
  | nil => simp [containsMatch]
  | cons y ys ih =>
    by_cases h : x = y
    · simp [containsMatch, h]
    · simp [containsMatch, h, ih]

theorem containsMatch_append {α : Type} [DecidableEq α] (R S : List α) (x : α) :
    containsMatch (R ++ S) x = (containsMatch R x || containsMatch S x) := by
  induction R with
  | nil => simp [containsMatch]
  | cons y ys ih =>
    by_cases h : x = y
    · simp [containsMatch, h]
    · simp [containsMatch, h, ih]

theorem containsMatch_singleton {α : Type} [DecidableEq α] (x z : α) :
    containsMatch [x] z = decide (z = x) := by
  by_cases h : z = x <;> simp [containsMatch, h]

theorem makeUniqueGo_fst {α : Type} [DecidableEq α] (Vector : List α) :
    ∀ (Result : List α) (Removed : Nat),
      (makeUniqueGo Result Vector Removed).1 =
        Result ++ keepFirstOccurrences (Vector.filter (fun y => !containsMatch Result y)) := by
  induction Vector with
  | nil => intro Result Removed; simp [makeUniqueGo, keepFirstOccurrences]
  | cons x xs ih =>
    intro Result Removed
    by_cases h : containsMatch Result x = true
    · rw [makeUniqueGo, if_pos h, ih]
      have hfilter : (x :: xs).filter (fun y => !containsMatch Result y) =
          xs.filter (fun y => !containsMatch Result y) := by
        simp [List.filter, h]
      rw [hfilter]
    · have hb : containsMatch Result x = false := by
        cases hcm : containsMatch Result x
        · rfl
        · exact absurd hcm h
      rw [makeUniqueGo, if_neg h, ih]
      have hfilter : (x :: xs).filter (fun y => !containsMatch Result y) =
          x :: xs.filter (fun y => !containsMatch Result y) := by
        simp [List.filter, hb]
      rw [hfilter, keepFirstOccurrences, List.append_assoc, List.singleton_append]
      have hinner : (xs.filter (fun y => !containsMatch Result y)).filter
            (fun y => decide (y ≠ x)) =
          xs.filter (fun y => !containsMatch (Result ++ [x]) y) := by
        rw [List.filter_filter]
        apply List.filter_congr
        intro z _
        rw [containsMatch_append, containsMatch_singleton]
        cases hc : containsMatch Result z <;> by_cases hz : z = x <;> simp [hz, hc]
      rw [hinner]

theorem makeUniqueGo_count {α : Type} [DecidableEq α] (Vector : List α) :
    ∀ (Result : List α) (Removed : Nat),
      (makeUniqueGo Result Vector Removed).2 + (makeUniqueGo Result Vector Removed).1.length =
        Removed + Result.length + Vector.length := by
  induction Vector with
  | nil => intro Result Removed; simp only [makeUniqueGo, List.length_nil]; omega
  | cons x xs ih =>
    intro Result Removed
    by_cases h : containsMatch Result x = true
    · rw [makeUniqueGo, if_pos h]
      have := ih Result (Removed + 1)
      simp only [List.length_cons]
      omega
    · rw [makeUniqueGo, if_neg h]
      have := ih (Result ++ [x]) Removed
      simp only [List.length_append, List.length_cons, List.length_nil] at this ⊢
      omega

theorem mem_keepFirstOccurrences {α : Type} [DecidableEq α] (Vector : List α) (x : α) :
    x ∈ keepFirstOccurrences Vector ↔ x ∈ Vector := by
  induction Vector using keepFirstOccurrences.induct with
  | case1 => simp [keepFirstOccurrences]
  | case2 y ys ih =>
    rw [keepFirstOccurrences]
    by_cases h : x = y
    · simp [h]
    · simp only [List.mem_cons, h, false_or, ih, List.mem_filter]
      constructor
      · exact fun hz => hz.1
      · intro hz
        exact ⟨hz, by simp [h]⟩

theorem nodup_keepFirstOccurrences {α : Type} [DecidableEq α] (Vector : List α) :
    (keepFirstOccurrences Vector).Nodup := by
  induction Vector using keepFirstOccurrences.induct with
  | case1 => simp [keepFirstOccurrences]
  | case2 y ys ih =>
    rw [keepFirstOccurrences]
    refine List.nodup_cons.mpr ⟨?_, ih⟩
    intro hmem
    rw [mem_keepFirstOccurrences, List.mem_filter] at hmem
    simpa using hmem.2

theorem MakeUniqueInPlace_props {α : Type} [DecidableEq α] (Vector : List α) :
    (MakeUniqueInPlace Vector).1.Nodup ∧
    (MakeUniqueInPlace Vector).1 = keepFirstOccurrences Vector ∧
    (MakeUniqueInPlace Vector).2 =
      Vector.length - (MakeUniqueInPlace Vector).1.length := by
  have hfst : (MakeUniqueInPlace Vector).1 = keepFirstOccurrences Vector := by
    rw [MakeUniqueInPlace, makeUniqueGo_fst]
    have : Vector.filter (fun y => !containsMatch ([] : List α) y) = Vector := by
      have : ∀ y ∈ Vector, (!containsMatch ([] : List α) y) = true := by
        intro y _; rfl
      rw [List.filter_congr this, List.filter_true]
    rw [this, List.nil_append]
  refine ⟨hfst ▸ nodup_keepFirstOccurrences Vector, hfst, ?_⟩
  have := makeUniqueGo_count Vector ([] : List α) 0
  rw [MakeUniqueInPlace]
  simp only [List.length_nil] at this ⊢
  omega

/-- Claim C4: after `MakeUniqueInPlace` the sequence contains no two equal
elements, it is exactly the subsequence of the original keeping the first
occurrence of each distinct value in the original relative order
(`keepFirstOccurrences`, written from the spec's words), and the returned
removed-count equals the original length minus the result's length. -/
theorem MakeUniqueInPlace_spec {α : Type} [DecidableEq α] (Vector : List α) :
    (MakeUniqueInPlace Vector).1.Nodup ∧
    (MakeUniqueInPlace Vector).1 = keepFirstOccurrences Vector ∧
    (MakeUniqueInPlace Vector).2 =
      Vector.length - (MakeUniqueInPlace Vector).1.length :=
  MakeUniqueInPlace_props Vector

end SLV

namespace SLV

theorem mem_MakeUniqueInPlace_fst {α : Type} [DecidableEq α] (Vector : List α) (x : α) :
    x ∈ (MakeUniqueInPlace Vector).1 ↔ x ∈ Vector := by
  rw [(MakeUniqueInPlace_props Vector).2.1, mem_keepFirstOccurrences]

theorem mem_CreateDifferential {α : Type} [DecidableEq α]
    (BaseVector ComparisonVector : List α) (x : α) :
    x ∈ CreateDifferential BaseVector ComparisonVector ↔
      x ∈ BaseVector ∧ x ∉ ComparisonVector := by
  rw [CreateDifferential, mem_MakeUniqueInPlace_fst, List.mem_filter]
  constructor
  · rintro ⟨hb, hc⟩
    refine ⟨hb, fun hmem => ?_⟩
    rw [Bool.not_eq_eq_eq_not, Bool.not_true] at hc
    exact absurd ((containsMatch_iff _ _).mpr hmem) (by simp [hc])
  · rintro ⟨hb, hc⟩
    refine ⟨hb, ?_⟩
    have : containsMatch ComparisonVector x = false := by
      cases hcm : containsMatch ComparisonVector x
      · rfl
      · exact absurd ((containsMatch_iff _ _).mp hcm) hc
    simp [this]

theorem mem_CreateUnion {α : Type} [DecidableEq α] (Vector1 Vector2 : List α) (x : α) :
    x ∈ CreateUnion Vector1 Vector2 ↔ x ∈ Vector1 ∨ x ∈ Vector2 := by
  rw [CreateUnion, mem_MakeUniqueInPlace_fst, Append, List.mem_append]

theorem mem_CreateIntersectional {α : Type} [DecidableEq α]
    (Vector1 Vector2 : List α) (x : α) :
    x ∈ CreateIntersectional Vector1 Vector2 ↔ x ∈ Vector1 ∧ x ∈ Vector2 := by
  rw [CreateIntersectional, mem_MakeUniqueInPlace_fst, List.mem_filter,
    containsMatch_iff]

/-- Claim C5: the symmetric difference has no duplicate elements, it is
set-equal to the union minus the intersection, and an element belongs to it
exactly when it occurs in exactly one of the two input sequences. -/
theorem CreateSymmeticalDifference_spec {α : Type} [DecidableEq α]
    (Vector1 Vector2 : List α) :
    (CreateSymmeticalDifference Vector1 Vector2).Nodup ∧
    (∀ x, x ∈ CreateSymmeticalDifference Vector1 Vector2 ↔
      x ∈ CreateUnion Vector1 Vector2 ∧ x ∉ CreateIntersectional Vector1 Vector2) ∧
    (∀ x, x ∈ CreateSymmeticalDifference Vector1 Vector2 ↔
      ((x ∈ Vector1 ∧ x ∉ Vector2) ∨ (x ∈ Vector2 ∧ x ∉ Vector1))) := by
  have hmem : ∀ x, x ∈ CreateSymmeticalDifference Vector1 Vector2 ↔
      ((x ∈ Vector1 ∧ x ∉ Vector2) ∨ (x ∈ Vector2 ∧ x ∉ Vector1)) := by
    intro x
    rw [CreateSymmeticalDifference, mem_MakeUniqueInPlace_fst, Append,
      List.mem_append, mem_CreateDifferential, mem_CreateDifferential]
  refine ⟨?_, ?_, hmem⟩
  · rw [CreateSymmeticalDifference,
      (MakeUniqueInPlace_props (Append (CreateDifferential Vector1 Vector2)
        (CreateDifferential Vector2 Vector1))).2.1]
    exact nodup_keepFirstOccurrences _
  · intro x
    rw [hmem, mem_CreateUnion, mem_CreateIntersectional]
    tauto

end SLV

namespace SLV

theorem length_buildChunks {α : Type} (Indices : Nat) :
    ∀ (k : Nat) (Vector : List α), (buildChunks Vector Indices k).length = k := by
  intro k
  induction k with
  | zero => intro Vector; rfl
  | succ k ih => intro Vector; simp [buildChunks, ih]

theorem getD_buildChunks {α : Type} (Indices : Nat) :
    ∀ (k i : Nat) (Vector : List α), i < k →
      (buildChunks Vector Indices k).getD i [] =
        (Vector.drop (Indices * i)).take Indices := by
  intro k
  induction k with
  | zero => intro i Vector h; omega
  | succ k ih =>
    intro i Vector h
    match i with
    | 0 => simp [buildChunks]
    | i + 1 =>
      rw [buildChunks, List.getD_cons_succ, ih i (Vector.drop Indices) (by omega),
        List.drop_drop]
      congr 2
      ring

theorem flatten_buildChunks {α : Type} (Indices : Nat) :
    ∀ (k : Nat) (Vector : List α),
      (buildChunks Vector Indices k).flatten = Vector.take (Indices * k) := by
  intro k
  induction k with
  | zero => intro Vector; simp [buildChunks]
  | succ k ih =>
    intro Vector
    rw [buildChunks, List.flatten_cons, ih, Nat.mul_succ, Nat.add_comm,
      List.take_add]

theorem length_appendRemainder {α : Type} :
    ∀ (Chunks : List (List α)) (Extras : List α), Extras.length ≤ Chunks.length →
      (appendRemainder Chunks Extras).length = Chunks.length := by
  intro Chunks
  induction Chunks with
  | nil =>
    intro Extras h
    match Extras with
    | [] => rfl
    | _ :: _ => simp at h
  | cons C Cs ih =>
    intro Extras h
    match Extras with
    | [] => rfl
    | e :: es =>
      simp only [appendRemainder, List.length_cons]
      rw [ih es (by simpa using h)]

theorem getD_appendRemainder {α : Type} :
    ∀ (Chunks : List (List α)) (Extras : List α) (i : Nat),
      Extras.length ≤ Chunks.length →
      (appendRemainder Chunks Extras).getD i [] =
        Chunks.getD i [] ++ (Extras.drop i).take 1 := by
  intro Chunks
  induction Chunks with
  | nil =>
    intro Extras i h
    match Extras with
    | [] => simp [appendRemainder]
    | _ :: _ => simp at h
  | cons C Cs ih =>
    intro Extras i h
    match Extras with
    | [] => simp [appendRemainder]
    | e :: es =>
      match i with
      | 0 => simp [appendRemainder]
      | i + 1 =>
        rw [appendRemainder, List.getD_cons_succ, List.getD_cons_succ,
          ih es i (by simpa using h), List.drop_succ_cons]

end SLV

namespace SLV

/-- Claim C1, counterexample: at `Distribute([1..10], 3, false)` the remainder
element `10` is appended to the first chunk, so the concatenation of the
chunks is not the input sequence, contrary to the claim's contiguity clause. -/
theorem Distribute_counterexample :
    Distribute [1, 2, 3, 4, 5, 6, 7, 8, 9, 10] 3 false =
      [[1, 2, 3, 10], [4, 5, 6], [7, 8, 9]] ∧
    ¬ (Distribute [1, 2, 3, 4, 5, 6, 7, 8, 9, 10] 3 false).flatten =
      [1, 2, 3, 4, 5, 6, 7, 8, 9, 10] := by
  constructor
  · decide
  · decide

/-- Claim C1, amended: with `q = len / n` and `r = len mod n`, for `n ≥ 2` the
call with `forceEqual = false` yields `n` chunks where chunk `i` is the
contiguous slice of `q` elements starting at `q * i` followed, when `i < r`,
by the single leftover element at position `n * q + i` (so the first `r`
chunks have size `q + 1` and the rest size `q`: remainder elements go one per
chunk to the leading chunks, not contiguously); with `forceEqual = true` it
yields `n` chunks of exactly those `q`-element slices, whose concatenation is
the first `n * q` elements in order, the remainder silently dropped; and for
`n ≤ 1` the result is a single chunk equal to the input. -/
theorem Distribute_spec {α : Type} (Vector : List α) (Distributions : Nat) :
    (Distributions ≤ 1 →
      Distribute Vector Distributions false = [Vector] ∧
      Distribute Vector Distributions true = [Vector]) ∧
    (2 ≤ Distributions →
      (Distribute Vector Distributions false).length = Distributions ∧
      (∀ i, i < Distributions →
        (Distribute Vector Distributions false).getD i [] =
          (Vector.drop (Vector.length / Distributions * i)).take
              (Vector.length / Distributions) ++
            ((Vector.drop (Distributions * (Vector.length / Distributions))).drop i).take 1) ∧
      (∀ i, i < Distributions →
        ((Distribute Vector Distributions false).getD i []).length =
          (if i < Vector.length % Distributions
            then Vector.length / Distributions + 1
            else Vector.length / Distributions)) ∧
      (Distribute Vector Distributions true).length = Distributions ∧
      (∀ i, i < Distributions →
        (Distribute Vector Distributions true).getD i [] =
          (Vector.drop (Vector.length / Distributions * i)).take
            (Vector.length / Distributions)) ∧
      (Distribute Vector Distributions true).flatten =
        Vector.take (Distributions * (Vector.length / Distributions))) := by
  constructor
  · intro h
    constructor <;> simp only [Distribute, if_pos h]
  · intro h
    have hn : ¬ Distributions ≤ 1 := by omega
    set L := Vector.length with hL
    set q := L / Distributions with hq
    set r := L % Distributions with hr
    have hdm : Distributions * q + r = L := Nat.div_add_mod L Distributions
    have hrlt : r < Distributions := Nat.mod_lt _ (by omega)
    have hextras : (Vector.drop (Distributions * q)).length = r := by
      rw [List.length_drop]
      omega
    have hchunks : (buildChunks Vector q Distributions).length = Distributions :=
      length_buildChunks q Distributions Vector
    have hlen : (Vector.drop (Distributions * q)).length ≤
        (buildChunks Vector q Distributions).length := by
      rw [hextras, hchunks]
      omega
    have hfalse : Distribute Vector Distributions false =
        appendRemainder (buildChunks Vector q Distributions)
          (Vector.drop (Distributions * q)) := by
      simp only [Distribute, if_neg hn, Bool.false_eq_true, if_false]
    have htrue : Distribute Vector Distributions true =
        buildChunks Vector q Distributions := by
      simp only [Distribute, if_neg hn, if_true]
    have hslice : ∀ i, i < Distributions → q * i + q ≤ L := by
      intro i hi
      have h1 : q * (i + 1) ≤ q * Distributions := Nat.mul_le_mul_left q (by omega)
      have h2 : q * Distributions = Distributions * q := Nat.mul_comm q Distributions
      have h3 : q * (i + 1) = q * i + q := by ring
      omega
    have hgetDfalse : ∀ i, i < Distributions →
        (Distribute Vector Distributions false).getD i [] =
          (Vector.drop (q * i)).take q ++
            ((Vector.drop (Distributions * q)).drop i).take 1 := by
      intro i hi
      rw [hfalse, getD_appendRemainder _ _ _ hlen, getD_buildChunks q Distributions i Vector hi]
    refine ⟨?_, hgetDfalse, ?_, ?_, ?_, ?_⟩
    · rw [hfalse, length_appendRemainder _ _ hlen, hchunks]
    · intro i hi
      rw [hgetDfalse i hi, List.length_append, List.length_take, List.length_take,
        List.length_drop, List.length_drop, hextras]
      have := hslice i hi
      rcases Nat.lt_or_ge i r with hir | hir
      · rw [if_pos hir]
        have h1 : q ⊓ (L - q * i) = q := Nat.min_eq_left (by omega)
        have h2 : 1 ⊓ (r - i) = 1 := Nat.min_eq_left (by omega)
        omega
      · rw [if_neg (by omega)]
        have h1 : q ⊓ (L - q * i) = q := Nat.min_eq_left (by omega)
        have h2 : r - i = 0 := by omega
        rw [h1, h2]
        simp
    · rw [htrue, hchunks]
    · intro i hi
      rw [htrue, getD_buildChunks q Distributions i Vector hi]
    · rw [htrue, flatten_buildChunks, Nat.mul_comm]

end SLV

namespace SLN

theorem trialLoop_false_sound (Value : Int) (i : Int) :
    5 ≤ i → trialLoop Value i = false →
      ∃ d : Int, 1 < d ∧ d < Value ∧ d ∣ Value := by
  induction i using trialLoop.induct Value with
  | case1 x hx2 hor =>
    intro h5 _
    have hx0 : (0 : Int) ≤ x := by omega
    have h5x : 5 * x ≤ x * x := mul_le_mul_of_nonneg_right h5 hx0
    rcases hor with hmod | hmod
    · exact ⟨x, by omega, by linarith, Int.dvd_of_emod_eq_zero hmod⟩
    · exact ⟨x + 2, by omega, by linarith, Int.dvd_of_emod_eq_zero hmod⟩
  | case2 x hx2 hnot ih =>
    intro h5 hf
    rw [trialLoop, dif_pos hx2, if_neg hnot] at hf
    exact ih (by omega) hf
  | case3 x hxgt =>
    intro _ hf
    rw [trialLoop, dif_neg hxgt] at hf
    exact absurd hf (by simp)

theorem trialLoop_true_complete (Value : Int) (i : Int) :
    5 ≤ i → i % 6 = 5 → trialLoop Value i = true →
      ∀ p : Int, i ≤ p → p * p ≤ Value → (p % 6 = 5 ∨ p % 6 = 1) → ¬ p ∣ Value := by
  induction i using trialLoop.induct Value with
  | case1 x hx2 hor =>
    intro _ _ ht
    rw [trialLoop, dif_pos hx2, if_pos hor] at ht
    exact absurd ht (by simp)
  | case2 x hx2 hnot ih =>
    intro h5 hm ht p hip hpp hpm hdvd
    rw [trialLoop, dif_pos hx2, if_neg hnot] at ht
    by_cases hpx : p = x
    · exact hnot (Or.inl (by rw [← hpx]; exact Int.emod_eq_zero_of_dvd hdvd))
    by_cases hpx2 : p = x + 2
    · exact hnot (Or.inr (by rw [← hpx2]; exact Int.emod_eq_zero_of_dvd hdvd))
    have hstep : x + 6 ≤ p := by omega
    exact ih (by omega) (by omega) ht p hstep hpp hpm hdvd
  | case3 x hxgt =>
    intro h5 _ _ p hip hpp _ _
    have hx0 : (0 : Int) ≤ x := by omega
    have hxp : x * x ≤ p * p := mul_le_mul hip hip hx0 (by omega)
    exact hxgt (le_trans hxp hpp)

theorem no_divisor_of_checks (Value : Int) (hv : 3 < Value)
    (h2 : ¬ Value % 2 = 0) (h3m : ¬ Value % 3 = 0)
    (ht : trialLoop Value 5 = true) :
    ∀ d : Int, 1 < d → d < Value → ¬ d ∣ Value := by
  intro d hd1 hdV hdvd
  have hnV : ((Value.toNat : Nat) : Int) = Value := Int.toNat_of_nonneg (by omega)
  set n := Value.toNat with hn
  have hn4 : 4 ≤ n := by omega
  have hmd : ((d.toNat : Nat) : Int) = d := Int.toNat_of_nonneg (by omega)
  set m := d.toNat with hmdef
  have hmn : m ∣ n := by
    rw [← Int.natCast_dvd_natCast, hmd, hnV]
    exact hdvd
  have hnotprime : ¬ n.Prime := by
    intro hp
    rcases hp.eq_one_or_self_of_dvd m hmn with h | h <;> omega
  have hp := Nat.minFac_prime (show n ≠ 1 by omega)
  have hdvdn := Nat.minFac_dvd n
  have hsq : n.minFac ^ 2 ≤ n := Nat.minFac_sq_le_self (by omega) hnotprime
  set p := n.minFac with hpdef
  have hpdvdV : ((p : Nat) : Int) ∣ Value := by
    rw [← hnV]
    exact_mod_cast hdvdn
  have hp2 : p ≠ 2 := by
    intro hc
    apply h2
    apply Int.emod_eq_zero_of_dvd
    rw [hc] at hpdvdV
    exact_mod_cast hpdvdV
  have hp3 : p ≠ 3 := by
    intro hc
    apply h3m
    apply Int.emod_eq_zero_of_dvd
    rw [hc] at hpdvdV
    exact_mod_cast hpdvdV
  have hp5 : 5 ≤ p := by
    have h2le := hp.two_le
    have hne4 : p ≠ 4 := by
      intro hc
      rw [hc] at hp
      norm_num at hp
    omega
  have hpmod2 : p % 2 = 1 := by
    have hnd : ¬ 2 ∣ p := by
      intro hdp
      rcases hp.eq_one_or_self_of_dvd 2 hdp with h | h <;> omega
    rw [Nat.dvd_iff_mod_eq_zero] at hnd
    omega
  have hpmod3 : p % 3 ≠ 0 := by
    have hnd : ¬ 3 ∣ p := by
      intro hdp
      rcases hp.eq_one_or_self_of_dvd 3 hdp with h | h <;> omega
    rw [Nat.dvd_iff_mod_eq_zero] at hnd
    exact hnd
  have hpp : ((p : Nat) : Int) * ((p : Nat) : Int) ≤ Value := by
    rw [pow_two] at hsq
    rw [← hnV]
    exact_mod_cast hsq
  have hpm : ((p : Nat) : Int) % 6 = 5 ∨ ((p : Nat) : Int) % 6 = 1 := by omega
  exact trialLoop_true_complete Value 5 (by norm_num) (by norm_num) ht
    ((p : Nat) : Int) (by exact_mod_cast hp5) hpp hpm hpdvdV

theorem IsPrime_correct :
    (∀ x : Int, x ≤ 1 → IsPrime x = false) ∧
    IsPrime 2 = true ∧ IsPrime 3 = true ∧
    (∀ x : Int, IsPrime x = true ↔
      (1 < x ∧ ∀ d : Int, 1 < d → d < x → ¬ d ∣ x)) := by
  refine ⟨?_, by norm_num [IsPrime], by norm_num [IsPrime], ?_⟩
  · intro x hx
    simp [IsPrime, hx]
  · intro x
    constructor
    · intro hx
      by_cases h1 : x ≤ 1
      · rw [IsPrime, if_pos h1] at hx
        exact absurd hx (by simp)
      by_cases h3 : x ≤ 3
      · refine ⟨by omega, ?_⟩
        intro d hd1 hdx hdvd
        rcases hdvd with ⟨k, hk⟩
        have hd2 : d = 2 := by omega
        have hx3 : x = 3 := by omega
        rw [hd2, hx3] at hk
        omega
      · rw [IsPrime, if_neg h1, if_neg h3] at hx
        by_cases he : IsEven x = true
        · rw [if_pos he] at hx
          exact absurd hx (by simp)
        rw [if_neg he] at hx
        by_cases h3m : x % 3 = 0
        · rw [if_pos h3m] at hx
          exact absurd hx (by simp)
        rw [if_neg h3m] at hx
        refine ⟨by omega, ?_⟩
        have he' : ¬ x % 2 = 0 := by
          intro hc
          exact he (by simp [IsEven, hc])
        exact no_divisor_of_checks x (by omega) he' h3m hx
    · rintro ⟨h1, hnd⟩
      rw [IsPrime, if_neg (by omega : ¬ x ≤ 1)]
      by_cases h3 : x ≤ 3
      · rw [if_pos h3]
      · rw [if_neg h3]
        have he : ¬ IsEven x = true := by
          intro he
          have hdd : (2 : Int) ∣ x := by
            apply Int.dvd_of_emod_eq_zero
            simpa [IsEven] using he
          exact hnd 2 (by norm_num) (by omega) hdd
        rw [if_neg he]
        have h3m : ¬ x % 3 = 0 := by
          intro hc
          exact hnd 3 (by norm_num) (by omega) (Int.dvd_of_emod_eq_zero hc)
        rw [if_neg h3m]
        cases hc : trialLoop x 5 with
        | true => rfl
        | false =>
          obtain ⟨d, hd1, hdx, hdvd⟩ := trialLoop_false_sound x 5 (by norm_num) hc
          exact absurd hdvd (hnd d hd1 hdx)

/-- Claim C6: `IsPrime` returns false for every value at most 1, true for 2
and 3, and in general returns true exactly when the value exceeds 1 and has
no divisor strictly between 1 and itself — the 6k±1 trial-division loop,
entered after the even and multiple-of-3 short circuits, decides all
remaining cases correctly. -/
theorem IsPrime_spec :
    (∀ x : Int, x ≤ 1 → IsPrime x = false) ∧
    IsPrime 2 = true ∧ IsPrime 3 = true ∧
    (∀ x : Int, IsPrime x = true ↔
      (1 < x ∧ ∀ d : Int, 1 < d → d < x → ¬ d ∣ x)) :=
  IsPrime_correct

theorem IsPrime_natCast_iff (n : Nat) : IsPrime ((n : Nat) : Int) = true ↔ n.Prime := by
  rw [IsPrime_correct.2.2.2 ((n : Nat) : Int)]
  constructor
  · rintro ⟨h1, hnd⟩
    rw [Nat.prime_def_lt]
    refine ⟨by exact_mod_cast h1, ?_⟩
    intro m hm hmd
    by_contra hne
    have hm0 : m ≠ 0 := by
      rintro rfl
      rw [Nat.zero_dvd] at hmd
      omega
    have hm1 : 1 < m := by omega
    exact hnd ((m : Nat) : Int) (by exact_mod_cast hm1) (by exact_mod_cast hm)
      (Int.natCast_dvd_natCast.mpr hmd)
  · intro hp
    refine ⟨by exact_mod_cast hp.one_lt, ?_⟩
    intro d hd1 hdn hdvd
    have hmd : ((d.toNat : Nat) : Int) = d := Int.toNat_of_nonneg (by omega)
    have hmdvd : d.toNat ∣ n := by
      rw [← Int.natCast_dvd_natCast, hmd]
      exact hdvd
    rcases hp.eq_one_or_self_of_dvd d.toNat hmdvd with h | h <;> omega

end SLN

namespace SLN

theorem exists_isPrime_ge (idx : Nat) :
    ∃ x : Nat, idx ≤ x ∧ IsPrime ((x : Nat) : Int) = true := by
  obtain ⟨p, hle, hp⟩ := Nat.exists_infinite_primes idx
  exact ⟨p, hle, (IsPrime_natCast_iff p).mpr hp⟩

/-- Distance from `idx` to the next value the embedded primality test
accepts; this is only the termination measure of the scanning loop below,
which is why the generator's definitions follow the primality lemmas. -/
def gapToPrime (idx : Nat) : Nat :=
  Nat.find (exists_isPrime_ge idx) - idx

theorem gapToPrime_decreasing (idx : Nat) (h : ¬ IsPrime ((idx : Nat) : Int) = true) :
    gapToPrime (idx + 1) < gapToPrime idx := by
  have hF := Nat.find_spec (exists_isPrime_ge idx)
  set F := Nat.find (exists_isPrime_ge idx) with hFdef
  have hne : F ≠ idx := by
    intro hc
    rw [hc] at hF
    exact h hF.2
  have hF1 : idx + 1 ≤ F := by omega
  have hmin : Nat.find (exists_isPrime_ge (idx + 1)) ≤ F :=
    Nat.find_min' (exists_isPrime_ge (idx + 1)) ⟨hF1, hF.2⟩
  have hge : idx + 1 ≤ Nat.find (exists_isPrime_ge (idx + 1)) :=
    (Nat.find_spec (exists_isPrime_ge (idx + 1))).1
  rw [gapToPrime, gapToPrime]
  omega

/-- Embedding of the while loop of `SLN::GeneratePrimes`
(SegLibNumerical.cpp, lines 21-35): `Index` scans upward one value at a time;
`Remaining` is how many primes the vector still needs
(`Primes.size() != Limit`). -/
def genPrimesLoop (Index : Nat) (Remaining : Nat) : List Nat :=
  if Remaining = 0 then []
  else if hp : IsPrime ((Index : Nat) : Int) = true then
    Index :: genPrimesLoop (Index + 1) (Remaining - 1)
  else genPrimesLoop (Index + 1) Remaining
termination_by (Remaining, gapToPrime Index)
decreasing_by
  · exact Prod.Lex.left _ _ (by omega)
  · exact Prod.Lex.right _ (gapToPrime_decreasing Index hp)

/-- Embedding of `SLN::GeneratePrimes` (SegLibNumerical.cpp, lines 21-35):
the scan starts at `Index = 5`. -/
def GeneratePrimes (Limit : Nat) : List Nat :=
  genPrimesLoop 5 Limit

theorem genPrimesLoop_props (Index Remaining : Nat) :
    (genPrimesLoop Index Remaining).length = Remaining ∧
    (∀ x ∈ genPrimesLoop Index Remaining, Index ≤ x ∧ IsPrime ((x : Nat) : Int) = true) ∧
    (genPrimesLoop Index Remaining).Pairwise (· < ·) ∧
    (∀ p : Nat, IsPrime ((p : Nat) : Int) = true → Index ≤ p →
      p ∉ genPrimesLoop Index Remaining →
      ∀ x ∈ genPrimesLoop Index Remaining, x < p) := by
  induction Index, Remaining using genPrimesLoop.induct with
  | case1 Index =>
    rw [genPrimesLoop, if_pos rfl]
    simp
  | case2 Index Remaining h0 hp ih =>
    obtain ⟨ihlen, ihmem, ihpw, ihcomp⟩ := ih
    rw [genPrimesLoop, if_neg h0, dif_pos hp]
    refine ⟨?_, ?_, ?_, ?_⟩
    · simp only [List.length_cons, ihlen]
      omega
    · intro x hx
      rcases List.mem_cons.mp hx with h | h
      · exact ⟨le_of_eq h.symm, h ▸ hp⟩
      · exact ⟨by have := (ihmem x h).1; omega, (ihmem x h).2⟩
    · refine List.pairwise_cons.mpr ⟨?_, ihpw⟩
      intro x hx
      have := (ihmem x hx).1
      omega
    · intro p hpp hip hnot x hx
      have hne : p ≠ Index := by
        intro hc
        exact hnot (hc ▸ List.mem_cons_self Index _)
      have hnott : p ∉ genPrimesLoop (Index + 1) (Remaining - 1) := by
        intro hc
        exact hnot (List.mem_cons_of_mem _ hc)
      rcases List.mem_cons.mp hx with h | h
      · omega
      · exact ihcomp p hpp (by omega) hnott x h
  | case3 Index Remaining h0 hp ih =>
    obtain ⟨ihlen, ihmem, ihpw, ihcomp⟩ := ih
    rw [genPrimesLoop, if_neg h0, dif_neg hp]
    refine ⟨ihlen, ?_, ihpw, ?_⟩
    · intro x hx
      exact ⟨by have := (ihmem x hx).1; omega, (ihmem x hx).2⟩
    · intro p hpp hip hnot x hx
      have hne : p ≠ Index := by
        intro hc
        rw [hc] at hpp
        exact hp hpp
      exact ihcomp p hpp (by omega) hnot x hx

/-- Claim C2, counterexample: `GeneratePrimes 1` returns `[5]`, although the
first 1 primes are `[2]` — the primes 2 and 3 that come before the scan's
starting point are omitted from the output. -/
theorem GeneratePrimes_counterexample :
    GeneratePrimes 1 = [5] ∧ Nat.Prime 2 ∧ 2 ∉ GeneratePrimes 1 ∧
    GeneratePrimes 1 ≠ [2] := by
  have h5 : IsPrime (((5 : Nat) : Nat) : Int) = true := by
    have hc : (((5 : Nat) : Nat) : Int) = (5 : Int) := by norm_num
    rw [hc, IsPrime]
    norm_num [IsEven]
    rw [trialLoop]
    norm_num
  have hmain : GeneratePrimes 1 = [5] := by
    rw [GeneratePrimes, genPrimesLoop, if_neg (by norm_num : ¬ (1 : Nat) = 0),
      dif_pos h5, genPrimesLoop, if_pos rfl]
  refine ⟨hmain, by norm_num, ?_, ?_⟩
  · rw [hmain]
    simp
  · rw [hmain]
    simp

/-- Claim C2, amended: `GeneratePrimes n` returns the first `n` primes that
are at least 5 (the scan starts at 5, so the primes 2 and 3 are omitted):
exactly `n` values, strictly increasing, each prime, and no prime greater
than or equal to 5 is omitted before or between the returned values. -/
theorem GeneratePrimes_spec (Limit : Nat) :
    (GeneratePrimes Limit).length = Limit ∧
    (GeneratePrimes Limit).Pairwise (· < ·) ∧
    (∀ x ∈ GeneratePrimes Limit, Nat.Prime x ∧ 5 ≤ x) ∧
    (∀ p : Nat, Nat.Prime p → 5 ≤ p → p ∉ GeneratePrimes Limit →
      ∀ x ∈ GeneratePrimes Limit, x < p) := by
  obtain ⟨hlen, hmem, hpw, hcomp⟩ := genPrimesLoop_props 5 Limit
  refine ⟨hlen, hpw, ?_, ?_⟩
  · intro x hx
    exact ⟨(IsPrime_natCast_iff x).mp (hmem x hx).2, (hmem x hx).1⟩
  · intro p hp h5 hnot
    exact hcomp p ((IsPrime_natCast_iff p).mpr hp) h5 hnot

end SLN
